import Mathlib

/- Verification of the cipher detection and solving engine of the
   hack-forsyth repository: the crypto core (normalizer, statistical
   detector, Caesar / Vigenere / monoalphabetic solvers, quadgram scorer),
   the worker analysis pipeline, and the ranking endpoint.

   Shallow embedding conventions: JavaScript numbers are modelled as exact
   rationals, strings as lists of characters, and objects with string keys
   as insertion-ordered association lists.  The quadgram table is an
   external resource (not part of the sources), so every scored function is
   parameterised by a table; `undefined` object keys and values are
   modelled with `Option`. -/

namespace Crypto

/-- Truncation toward zero, the rounding JavaScript applies inside the
    remainder operator. -/
def jsTrunc (q : ℚ) : ℤ := if 0 ≤ q then ⌊q⌋ else ⌈q⌉

/-- JavaScript remainder `x % m`: the result keeps the sign of the dividend. -/
def jsMod (x m : ℚ) : ℚ := x - m * (jsTrunc (x / m) : ℚ)

/-- JavaScript `Math.round`, which rounds halves toward positive infinity. -/
def jsRound (q : ℚ) : ℤ := ⌊q + 1/2⌋

/-- JavaScript array indexing with an arbitrary integer index: out-of-range
    access yields `undefined`, modelled as `none`. -/
def jsIdx {α : Type} (l : List α) (i : ℤ) : Option α :=
  if h : 0 ≤ i ∧ i.toNat < l.length then some (l.get ⟨i.toNat, h.2⟩) else none

/-- JavaScript `Array.prototype.indexOf`, returning -1 when absent. -/
def jsIndexOf {α : Type} [DecidableEq α] (a : α) : List α → ℤ
  | [] => -1
  | x :: xs =>
    if x = a then 0
    else
      let r := jsIndexOf a xs
      if r = -1 then -1 else r + 1

/-- JavaScript `v || d` on an optionally-present number: `undefined` and the
    falsy value `0` both fall through to the default. -/
def jsOrQ (v : Option ℚ) (d : ℚ) : ℚ :=
  match v with
  | some x => if x = 0 then d else x
  | none => d

/-- Keys of a JavaScript object in insertion order: the distinct elements of a
    list, keeping the first occurrence of each. -/
def dedupFirst (l : List Char) : List Char :=
  l.foldl (fun acc c => if c ∈ acc then acc else acc ++ [c]) []

/-- Stable insertion of `x` into a list ordered by `f` descending: `x` goes
    before the first strictly smaller element, hence after all ties. -/
def insertDescBy {α : Type} (f : α → ℚ) (x : α) : List α → List α
  | [] => [x]
  | y :: ys => if f y < f x then x :: y :: ys else y :: insertDescBy f x ys

/-- Stable sort by `f` descending, the behaviour of JavaScript
    `sort((a, b) => f(b) - f(a))` (required stable since ES2019). -/
def sortDescBy {α : Type} (f : α → ℚ) (l : List α) : List α :=
  l.foldl (fun acc x => insertDescBy f x acc) []

/-- Descending order by the key `f`: every element is at least as large (under
    `f`) as every element after it. -/
def SortedDescQ {α : Type} (f : α → ℚ) (l : List α) : Prop :=
  l.Pairwise (fun a b => f b ≤ f a)

theorem insertDescBy_perm {α : Type} (f : α → ℚ) (x : α) (l : List α) :
    List.Perm (insertDescBy f x l) (x :: l) := by
  induction l with
  | nil => rfl
  | cons y ys ih =>
    simp only [insertDescBy]
    split
    · rfl
    · exact ((ih.cons y).trans (List.Perm.swap x y ys))

theorem sortDescBy_perm {α : Type} (f : α → ℚ) (l : List α) :
    List.Perm (sortDescBy f l) l := by
  suffices h : ∀ acc : List α, List.Perm (l.foldl (fun acc x => insertDescBy f x acc) acc) (acc ++ l) by
    simpa using h []
  induction l with
  | nil => simp
  | cons y ys ih =>
    intro acc
    simp only [List.foldl_cons]
    exact (ih (insertDescBy f y acc)).trans
      ((((insertDescBy_perm f y acc).append_right ys).trans List.perm_middle.symm))

theorem sortDescBy_length {α : Type} (f : α → ℚ) (l : List α) :
    (sortDescBy f l).length = l.length :=
  (sortDescBy_perm f l).length_eq

theorem mem_sortDescBy {α : Type} {f : α → ℚ} {l : List α} {a : α} :
    a ∈ sortDescBy f l ↔ a ∈ l :=
  (sortDescBy_perm f l).mem_iff

theorem insertDescBy_sorted {α : Type} {f : α → ℚ} {x : α} {l : List α}
    (h : SortedDescQ f l) : SortedDescQ f (insertDescBy f x l) := by
  induction l with
  | nil => simp [SortedDescQ, insertDescBy]
  | cons y ys ih =>
    rcases List.pairwise_cons.mp h with ⟨hy, hys⟩
    simp only [insertDescBy]
    split
    · rename_i hlt
      refine List.pairwise_cons.mpr ⟨?_, h⟩
      intro b hb
      rcases List.mem_cons.mp hb with rfl | hb
      · exact le_of_lt hlt
      · exact (hy b hb).trans (le_of_lt hlt)
    · rename_i hnlt
      refine List.pairwise_cons.mpr ⟨?_, ih hys⟩
      intro b hb
      rcases List.mem_cons.mp ((insertDescBy_perm f x ys).mem_iff.mp hb) with rfl | hb
      · exact le_of_not_lt hnlt
      · exact hy b hb

theorem sortDescBy_sorted {α : Type} (f : α → ℚ) (l : List α) :
    SortedDescQ f (sortDescBy f l) := by
  suffices h : ∀ acc : List α, SortedDescQ f acc →
      SortedDescQ f (l.foldl (fun acc x => insertDescBy f x acc) acc) by
    exact h [] (by simp [SortedDescQ])
  induction l with
  | nil => exact fun acc h => h
  | cons y ys ih =>
    intro acc hacc
    exact ih (insertDescBy f y acc) (insertDescBy_sorted hacc)

theorem SortedDescQ.take {α : Type} {f : α → ℚ} {l : List α} (h : SortedDescQ f l)
    (n : ℕ) : SortedDescQ f (l.take n) :=
  h.sublist (List.take_sublist n l)

/-- Uppercasing of an ASCII character: the fragment of `toUpperCase` relevant
    to the character stream this engine manipulates. -/
def asciiUpper (c : Char) : Char :=
  if 'a' ≤ c ∧ c ≤ 'z' then Char.ofNat (c.toNat - 32) else c

/-- Embedding of `normalizeText`: the source first deletes every character
    that is not already an uppercase letter (`replace(/[^A-Z]/g, '')`) and
    only then calls `toUpperCase`, which is the identity on the survivors. -/
def normalizeTextL (l : List Char) : List Char :=
  (l.filter (fun c => decide ('A' ≤ c ∧ c ≤ 'Z'))).map asciiUpper

/-- Modelled from the spec: the Normalizer contract of section 4.1, "the
    subsequence of ASCII letters, uppercased, in original order; whitespace,
    digits, and punctuation removed". -/
def normalizeSpec (l : List Char) : List Char :=
  (l.filter (fun c => decide (('A' ≤ c ∧ c ≤ 'Z') ∨ ('a' ≤ c ∧ c ≤ 'z')))).map asciiUpper

def c1Input : List Char := "abc".toList

/-- C1: refuted on the code (code bug).  The specification describes the
    normalizer as keeping every ASCII letter, uppercased; the code filters
    out everything that is not already uppercase before calling the (then
    vacuous) `toUpperCase`, so lowercase input letters are silently dropped:
    `normalize("abc")` is empty where the specified normalizer yields "ABC". -/
theorem normalizeText_drops_lowercase :
    normalizeTextL c1Input = [] ∧
    normalizeSpec c1Input = "ABC".toList ∧
    ("ABC".toList : List Char) ≠ [] := by
  decide

/-- Uppercase alphabet in order, as the detector iterates over it. -/
def upperAlphabet : List Char := "ABCDEFGHIJKLMNOPQRSTUVWXYZ".toList

/-- Embedding of `calculateIC` on an already-normalized letter list: the sum
    of f·(f-1) over the letter counts (iterated over the frequency object's
    keys, i.e. the distinct letters in first-occurrence order), divided by
    n·(n-1); defined as 0 for n ≤ 1. -/
def calculateICCore (normalized : List Char) : ℚ :=
  let n := normalized.length
  if n ≤ 1 then 0
  else
    let total := ((dedupFirst normalized).map
      (fun c => (normalized.count c : ℚ) * ((normalized.count c : ℚ) - 1))).sum
    total / ((n : ℚ) * ((n : ℚ) - 1))

/-- Embedding of `calculateIC`, which normalizes its argument itself. -/
def calculateIC (text : List Char) : ℚ := calculateICCore (normalizeTextL text)

/-- Integers from `a` to `b` inclusive (empty when `b < a`). -/
def intRange (a b : ℤ) : List ℤ :=
  (List.range (b + 1 - a).toNat).map (fun i => a + (i : ℤ))

/-- Embedding of `friedmanTest` on the normalized text: candidates around the
    Friedman estimate, a short-key fallback when the estimate is small,
    clamped to [2,20] and capped at 8. -/
def friedmanTestCore (normalized : List Char) : List ℕ :=
  let ic := calculateIC normalized
  let kp : ℚ := 0.0667
  let kr : ℚ := 0.0385
  if ic ≤ kr then []
  else
    let estimatedKeyLength := (kp - kr) / (ic - kr)
    let base := jsRound estimatedKeyLength
    let candidates := intRange (max 2 (base - 3)) (min 20 (base + 3))
    let candidates :=
      if base < 5 then
        [(2 : ℤ), 3, 4, 5, 6].foldl (fun cs k => if k ∈ cs then cs else cs ++ [k]) candidates
      else candidates
    ((candidates.filter (fun k => decide (2 ≤ k) && decide (k ≤ 20))).take 8).map Int.toNat

/-- Embedding of `friedmanTest`. -/
def friedmanTest (text : List Char) : List ℕ := friedmanTestCore (normalizeTextL text)

/-- JavaScript-object update used by the trigram index: append position `i`
    to the entry of trigram `t`, or create the entry at the end. -/
def addPos (acc : List (List Char × List ℕ)) (t : List Char) (i : ℕ) :
    List (List Char × List ℕ) :=
  if (acc.lookup t).isSome then acc.map (fun p => if p.1 = t then (p.1, p.2 ++ [i]) else p)
  else acc ++ [(t, [i])]

/-- Embedding of the trigram-position index built by `kasiskiExamination` and
    `detectRepeatingPatterns`: every 3-gram with its occurrence positions, in
    first-occurrence order. -/
def collectTrigrams (normalized : List Char) : List (List Char × List ℕ) :=
  (List.range (normalized.length + 1 - 3)).foldl
    (fun acc i => addPos acc ((normalized.drop i).take 3) i) []

/-- All pairwise distances `positions[j] - positions[i]` for `i < j`, in the
    source's nested-loop order. -/
def pairDiffs : List ℕ → List ℕ
  | [] => []
  | p :: ps => ps.map (fun q => q - p) ++ pairDiffs ps

/-- Vote count of a key-length factor over the Kasiski distances. -/
def factorCount (distances : List ℕ) (f : ℕ) : ℕ :=
  (distances.filter (fun d => decide (f ≤ min 20 d) && decide (d % f = 0))).length

/-- Embedding of `kasiskiExamination` on the normalized text: top 5 divisors
    in [2,20] of repeated-trigram distances by vote count (ties resolved by
    the ascending numeric iteration order of object keys). -/
def kasiskiExaminationCore (normalized : List Char) : List ℕ :=
  let patterns := collectTrigrams normalized
  let distances := patterns.foldl (fun ds p => if 1 < p.2.length then ds ++ pairDiffs p.2 else ds) []
  let factors := (List.range' 2 19).filter (fun f => factorCount distances f ≠ 0)
  (sortDescBy (fun f => (factorCount distances f : ℚ)) factors).take 5

/-- Embedding of `kasiskiExamination`. -/
def kasiskiExamination (text : List Char) : List ℕ := kasiskiExaminationCore (normalizeTextL text)

/-- Sum of consecutive gaps `positions[i+1] - positions[i]`. -/
def consecDiffsSum : List ℕ → ℕ
  | [] => 0
  | [_] => 0
  | p :: q :: ps => (q - p) + consecDiffsSum (q :: ps)

/-- Embedding of `detectRepeatingPatterns` on the normalized text: the mean
    gap between repeats and the number of distinct repeated trigrams. -/
def detectRepeatingPatternsCore (normalized : List Char) : ℚ × ℕ :=
  let patterns := collectTrigrams normalized
  let repeated := patterns.filter (fun p => 1 < p.2.length)
  let patternCount := repeated.length
  let totalDistance := (repeated.map (fun p => consecDiffsSum p.2)).sum
  (if 0 < patternCount then (totalDistance : ℚ) / (patternCount : ℚ) else 0, patternCount)

/-- Embedding of `detectRepeatingPatterns`. -/
def detectRepeatingPatterns (text : List Char) : ℚ × ℕ :=
  detectRepeatingPatternsCore (normalizeTextL text)

/-- Canonical English unigram frequency table of the source. -/
def englishFreqTable : List (Char × ℚ) :=
  [('A', 0.082), ('B', 0.015), ('C', 0.028), ('D', 0.043), ('E', 0.127), ('F', 0.022),
   ('G', 0.020), ('H', 0.061), ('I', 0.070), ('J', 0.002), ('K', 0.008), ('L', 0.040),
   ('M', 0.024), ('N', 0.067), ('O', 0.075), ('P', 0.019), ('Q', 0.001), ('R', 0.060),
   ('S', 0.063), ('T', 0.091), ('U', 0.028), ('V', 0.010), ('W', 0.023), ('X', 0.001),
   ('Y', 0.020), ('Z', 0.001)]

/-- Frequency lookup for the chi-squared statistic. -/
def englishFreq (c : Char) : ℚ := (englishFreqTable.lookup c).getD 0

/-- Embedding of `calculateCharacterDistribution` on the normalized text:
    chi-squared distance of the letter histogram from English frequencies,
    skipping letters whose expected count is not positive. -/
def calculateCharacterDistributionCore (normalized : List Char) : ℚ :=
  let textLen := normalized.length
  (List.range 26).foldl
    (fun chiSquared i =>
      let c := Char.ofNat (65 + i)
      let observed : ℚ := (normalized.count c : ℚ)
      let expected : ℚ := englishFreq c * (textLen : ℚ)
      if 0 < expected then chiSquared + (observed - expected) ^ 2 / expected else chiSquared)
    0

/-- Embedding of `calculateCharacterDistribution`. -/
def calculateCharacterDistribution (text : List Char) : ℚ :=
  calculateCharacterDistributionCore (normalizeTextL text)

/-- Cipher families of the engine. -/
inductive CipherType
  | caesar
  | vigenere
  | mono
deriving DecidableEq, Repr

/-- Embedding of the `DetectionResult` interface. -/
structure DetectionResult where
  likelyType : CipherType
  ic : ℚ
  keyLengths : List ℕ
  confidence : ℚ
deriving DecidableEq, Repr

/-- Embedding of `detectCipherType` (the first, refined variant of the
    source): merges Friedman (weight 2) and Kasiski (weight 3) key-length
    votes — numeric object keys iterate in ascending order, the stable sort
    then orders by vote count — and applies the ordered threshold rules. -/
def detectCipherType (text : List Char) : DetectionResult :=
  let ic := calculateIC text
  let friedmanKeyLengths := friedmanTest text
  let kasiskiKeyLengths := kasiskiExamination text
  let patterns := detectRepeatingPatterns text
  let chiSquared := calculateCharacterDistribution text
  let keyCount : ℕ → ℕ := fun k =>
    (if k ∈ friedmanKeyLengths then 2 else 0) + (if k ∈ kasiskiKeyLengths then 3 else 0)
  let presentKeys := (List.range' 2 19).filter (fun k => keyCount k ≠ 0)
  let allKeyLengths := (sortDescBy (fun k => (keyCount k : ℚ)) presentKeys).take 8
  let pc := patterns.2
  let tc : CipherType × ℚ :=
    if 0.063 ≤ ic ∧ chiSquared < 60 ∧ pc ≤ 3 then
      (CipherType.caesar, min 0.95 ((ic - 0.050) * 18 + (60 - chiSquared) / 120))
    else if 0.038 ≤ ic ∧ ic ≤ 0.052 ∧ 3 ≤ pc ∧ allKeyLengths ≠ [] then
      (CipherType.vigenere, min 0.95 ((0.070 - ic) * 12 + (pc : ℚ) / 8))
    else if 0.055 ≤ ic ∧ ic < 0.063 ∧ 40 < chiSquared then
      (CipherType.mono, min 0.95 ((ic - 0.040) * 10 + min (chiSquared / 120) 0.25))
    else if 0.063 ≤ ic ∧ 60 ≤ chiSquared then
      (CipherType.mono, min 0.85 ((ic - 0.040) * 8))
    else if 0.055 ≤ ic then
      (if 0.063 ≤ ic then CipherType.caesar else CipherType.mono, min 0.75 (ic * 10))
    else
      (CipherType.vigenere, min 0.75 ((0.070 - ic) * 12))
  { likelyType := tc.1
    ic := ic
    keyLengths := if allKeyLengths ≠ [] then allKeyLengths else [2, 3, 4, 5, 6]
    confidence := tc.2 }

def c2Input : List Char := "WKDW LV D VHFUHW PHVVDJH".toList

set_option maxRecDepth 40000 in
unseal Rat.add Rat.mul Rat.inv Rat.sub Rat.ofScientific in
/-- C2 counterexample: on the claim's concrete ciphertext (Caesar shift 3 of
    "THAT IS A SECRET MESSAGE") the detector does not classify the input as
    caesar — the ciphertext's letter histogram is far from English (chi² ≈ 142
    ≥ 60) while its IC is high, so the "unusual substitution" branch fires. -/
theorem detect_c2_not_caesar :
    (detectCipherType c2Input).likelyType ≠ CipherType.caesar := by
  decide

/-- Quadgram table type.  The table is an external JSON resource (it ships
    outside the sources), so every scoring function is parameterised by it;
    modelled from the spec, section 3: a mapping from 4-letter sequence to
    log-probability, an arbitrary rational, with the degraded mode (load
    failure) being the empty table. -/
abbrev QuadTable := List (List Char × ℚ)

/-- Embedding of `scoreText` on an already-normalized text: sentinel -999999
    below 4 letters, otherwise the window scores accumulated in the source's
    loop order (with the JavaScript `||` default of -12) divided by
    max(1, len - 3). -/
def scoreTextCore (tbl : QuadTable) (normalized : List Char) : ℚ :=
  if normalized.length < 4 then -999999
  else
    let score := (List.range (normalized.length + 1 - 4)).foldl
      (fun score i => score + jsOrQ (tbl.lookup ((normalized.drop i).take 4)) (-12)) 0
    score / max 1 ((normalized.length : ℚ) - 3)

/-- Embedding of `scoreText`, which normalizes its argument itself. -/
def scoreText (tbl : QuadTable) (text : List Char) : ℚ :=
  scoreTextCore tbl (normalizeTextL text)

/-- Sliding 4-letter windows of a text, as the spec reads: every 4-letter
    substring, walked left to right. -/
def slidingWindows : List Char → List (List Char)
  | [] => []
  | c :: cs => if cs.length + 1 < 4 then [] else ((c :: cs).take 4) :: slidingWindows cs

/-- Window score of C4 as stated: the table's log-probability, substituting
    -12 only when the 4-gram is absent from the table. -/
def windowScoreClaimed (tbl : QuadTable) (w : List Char) : ℚ :=
  match tbl.lookup w with
  | some v => v
  | none => -12

/-- Amended window score: the JavaScript `||` fallback also fires on a stored
    value of exactly 0, so a zero entry pays the default penalty too. -/
def windowScoreAmended (tbl : QuadTable) (w : List Char) : ℚ :=
  match tbl.lookup w with
  | some v => if v = 0 then -12 else v
  | none => -12

/-- Specification-side scorer of C4 exactly as the claim states it. -/
def scoreTextClaimed (tbl : QuadTable) (text : List Char) : ℚ :=
  let t := normalizeTextL text
  if t.length < 4 then -999999
  else ((slidingWindows t).map (windowScoreClaimed tbl)).sum / max 1 ((t.length : ℚ) - 3)

/-- Specification-side scorer of C4 with the amended fallback clause. -/
def scoreTextSpecAmended (tbl : QuadTable) (text : List Char) : ℚ :=
  let t := normalizeTextL text
  if t.length < 4 then -999999
  else ((slidingWindows t).map (windowScoreAmended tbl)).sum / max 1 ((t.length : ℚ) - 3)

theorem foldl_add_map {α : Type} (f : α → ℚ) (l : List α) (a : ℚ) :
    l.foldl (fun acc x => acc + f x) a = a + (l.map f).sum := by
  induction l generalizing a with
  | nil => simp
  | cons x xs ih => simp [ih, add_assoc]

theorem windows_eq_slidingWindows (l : List Char) :
    (List.range (l.length + 1 - 4)).map (fun i => (l.drop i).take 4) = slidingWindows l := by
  induction l with
  | nil => simp [slidingWindows]
  | cons c cs ih =>
    by_cases h : cs.length + 1 < 4
    · have h0 : (c :: cs).length + 1 - 4 = 0 := by
        simp only [List.length_cons]
        omega
      rw [h0]
      simp [slidingWindows, h]
    · have h1 : (c :: cs).length + 1 - 4 = (cs.length + 1 - 4) + 1 := by
        simp only [List.length_cons]
        omega
      rw [h1, List.range_succ_eq_map]
      simp only [List.map_cons, List.map_map, slidingWindows, if_neg h, List.drop_zero]
      refine congrArg (List.cons _) ?_
      rw [← ih]
      apply List.map_congr_left
      intro i _
      simp [Function.comp, List.drop_succ_cons]

theorem jsOrQ_lookup_eq_amended (tbl : QuadTable) (w : List Char) :
    jsOrQ (tbl.lookup w) (-12) = windowScoreAmended tbl w := by
  unfold jsOrQ windowScoreAmended
  cases tbl.lookup w <;> simp

/-- C4 amended theorem: `scoreText` equals the spec-side sliding-window mean
    score for every table and every text, with the fallback clause extended
    to zero-valued entries (which the JavaScript `||` also replaces by -12). -/
theorem scoreText_eq_spec (tbl : QuadTable) (text : List Char) :
    scoreText tbl text = scoreTextSpecAmended tbl text := by
  unfold scoreText scoreTextCore scoreTextSpecAmended
  by_cases h : (normalizeTextL text).length < 4
  · simp [h]
  · simp only [h, if_false]
    rw [foldl_add_map (fun i => jsOrQ (tbl.lookup (((normalizeTextL text).drop i).take 4)) (-12))]
    rw [zero_add]
    congr 1
    rw [← windows_eq_slidingWindows, List.map_map]
    have hfg : (fun i => jsOrQ (tbl.lookup (((normalizeTextL text).drop i).take 4)) (-12)) =
        (windowScoreAmended tbl ∘ fun i => ((normalizeTextL text).drop i).take 4) := by
      funext i
      exact jsOrQ_lookup_eq_amended tbl _
    rw [hfg]

def c4Quad : List Char := "AAAA".toList

def c4Table : QuadTable := [(c4Quad, 0)]

unseal Rat.add Rat.mul Rat.inv Rat.sub Rat.ofScientific in
/-- C4 counterexample: a table holding the entry "AAAA" with log-probability 0
    refutes the claim as stated — the code scores "AAAA" as -12 (the `||`
    fallback fires on the falsy stored 0), while the claimed formula (default
    only for absent 4-grams) yields 0. -/
theorem scoreText_zero_entry_counterexample :
    scoreText c4Table c4Quad = -12 ∧ scoreTextClaimed c4Table c4Quad = 0 ∧
    scoreText c4Table c4Quad ≠ scoreTextClaimed c4Table c4Quad := by
  decide

/-- Monoalphabetic mapping as a JavaScript object: an insertion-ordered
    association list; `none` stands for the `undefined` key or value. -/
abbrev MonoMap := List (Option Char × Option Char)

/-- Embedding of the `CipherResult` interface. -/
structure CipherResult where
  type : CipherType
  key : Option (List Char) := none
  shift : Option ℕ := none
  mapping : Option MonoMap := none
  plaintext : List Char
  confidence : ℚ
  formula : String
  ngramScore : ℚ
  llmScore : Option ℚ := none
  llmReasoning : Option String := none
deriving DecidableEq, Repr

/-- Caesar decryption of one character: `(code - shift + 26) % 26`. -/
def caesarShiftChar (shift : ℕ) (c : Char) : Char :=
  Char.ofNat ((c.toNat - 65 + 26 - shift) % 26 + 65)

/-- Caesar decryption of a normalized text. -/
def caesarDecrypt (normalized : List Char) (shift : ℕ) : List Char :=
  normalized.map (caesarShiftChar shift)

/-- Embedding of `solveCaesar` on the normalized ciphertext: all 26 shifts,
    each scored by quadgrams plus an IC bonus and a chi-squared penalty, with
    confidence bumps for shifts 13, 1 and 25; stable-sorted by combined
    score descending and cut to the top 10. -/
def solveCaesarCore (tbl : QuadTable) (normalized : List Char) : List CipherResult :=
  let results := (List.range 26).map (fun shift =>
    let plaintext := caesarDecrypt normalized shift
    let ngramScore := scoreText tbl plaintext
    let ic := calculateIC plaintext
    let chiSquared := calculateCharacterDistribution plaintext
    let icBonus := if 0.060 < ic then (ic - 0.060) * 10 else 0
    let chiPenalty := if 30 < chiSquared then (chiSquared - 30) / 100 else 0
    let combinedScore := ngramScore + icBonus - chiPenalty
    let confidence := max 0.01 (min 0.99 ((combinedScore + 10) / 6))
    let confidence := if shift = 13 then min 0.99 (confidence + 0.05) else confidence
    let confidence := if shift = 1 ∨ shift = 25 then min 0.99 (confidence + 0.03) else confidence
    { type := CipherType.caesar
      shift := some shift
      plaintext := plaintext
      confidence := confidence
      formula := "E(x) = (x - " ++ toString shift ++ ") mod 26"
      ngramScore := combinedScore })
  (sortDescBy (fun r => r.ngramScore) results).take 10

/-- Embedding of `solveCaesar`. -/
def solveCaesar (tbl : QuadTable) (ciphertext : List Char) : List CipherResult :=
  solveCaesarCore tbl (normalizeTextL ciphertext)

theorem normalizeTextL_nil : normalizeTextL [] = [] := rfl

theorem scoreText_nil (tbl : QuadTable) : scoreText tbl [] = -999999 := rfl

theorem caesarDecrypt_nil (shift : ℕ) : caesarDecrypt [] shift = [] := rfl

theorem calculateIC_nil : calculateIC [] = 0 := rfl

unseal Rat.add Rat.mul Rat.inv Rat.sub Rat.ofScientific in
theorem chiDist_nil : calculateCharacterDistribution [] = 0 := by
  decide

/-- C10: for every table and every input, `solveCaesar` returns exactly 10
    candidates (all 26 shifts are computed, the top 10 kept), so the list is
    never empty; and on degenerate input (no letters after normalization)
    every returned candidate has an empty plaintext and the sentinel combined
    score -999999. -/
theorem solveCaesar_ten_candidates (tbl : QuadTable) (ct : List Char) :
    (solveCaesar tbl ct).length = 10 ∧
    (normalizeTextL ct = [] →
      ∀ r ∈ solveCaesar tbl ct, r.plaintext = [] ∧ r.ngramScore = -999999) := by
  constructor
  · show (solveCaesarCore tbl (normalizeTextL ct)).length = 10
    unfold solveCaesarCore
    rw [List.length_take, sortDescBy_length, List.length_map, List.length_range]
    decide
  · intro h r hr
    unfold solveCaesar at hr
    rw [h] at hr
    unfold solveCaesarCore at hr
    replace hr := mem_sortDescBy.mp (List.mem_of_mem_take hr)
    obtain ⟨shift, _, rfl⟩ := List.mem_map.mp hr
    refine ⟨rfl, ?_⟩
    show scoreText tbl (caesarDecrypt [] shift) +
        (if 0.060 < calculateIC (caesarDecrypt [] shift) then
          (calculateIC (caesarDecrypt [] shift) - 0.060) * 10 else 0) -
        (if 30 < calculateCharacterDistribution (caesarDecrypt [] shift) then
          (calculateCharacterDistribution (caesarDecrypt [] shift) - 30) / 100 else 0) =
      -999999
    rw [caesarDecrypt_nil, scoreText_nil, calculateIC_nil, chiDist_nil]
    norm_num

def c2Plain : List Char := "THATISASECRETMESSAGE".toList

set_option maxRecDepth 80000 in
unseal Rat.add Rat.mul Rat.inv Rat.sub Rat.ofScientific in
/-- C2 amended: the claim's solver half holds in the degraded (empty-table)
    mode, but the detector half must be corrected — on the concrete ciphertext
    "WKDW LV D VHFUHW PHVVDJH", `solveCaesar` ranks shift 3 first with
    plaintext "THATISASECRETMESSAGE", while `detectCipherType` classifies the
    input as mono (its chi-squared against English is ≥ 60), with an Index of
    Coincidence of 9/95 ≥ 0.063. -/
theorem c2_scenario_amended :
    ((solveCaesar [] c2Input).head?.map (fun r => (r.shift, r.plaintext))) =
      some (some 3, c2Plain) ∧
    (detectCipherType c2Input).likelyType = CipherType.mono ∧
    0.063 ≤ (detectCipherType c2Input).ic := by
  decide

/-- Column `c` of the ciphertext under key length `k`: the characters at
    positions congruent to `c` modulo `k` (`columns[i % keyLen] += ch`). -/
def columnOf (normalized : List Char) (k c : ℕ) : List Char :=
  (normalized.enum.filter (fun p => decide (p.1 % k = c))).map Prod.snd

/-- Best shift for one nonempty column: 26-shift search scored by quadgrams
    plus an IC bonus, strict improvement only, starting from shift 0 with
    score -999999. -/
def bestColumnShift (tbl : QuadTable) (column : List Char) : ℕ × ℚ :=
  (List.range 26).foldl
    (fun best shift =>
      let decryptedColumn := caesarDecrypt column shift
      let ngramScore := scoreText tbl decryptedColumn
      let ic := calculateIC decryptedColumn
      let icBonus := if 0.060 < ic then (ic - 0.060) * 5 else 0
      let combinedScore := ngramScore + icBonus
      if best.2 < combinedScore then (shift, combinedScore) else best)
    (0, -999999)

/-- Per-column shift and score: empty columns default to shift 0 with the
    sentinel score -999. -/
def columnShift (tbl : QuadTable) (column : List Char) : ℕ × ℚ :=
  if column = [] then (0, -999) else bestColumnShift tbl column

/-- Key lengths actually attempted by `solveVigenere`: the input candidates
    kept by the range filter [2, min(20, n/3)], capped at 8. -/
def vigenereKeyLens (normalized : List Char) (keyLengths : List ℕ) : List ℕ :=
  (keyLengths.filter (fun (k : ℕ) =>
    decide (2 ≤ k) && decide ((k : ℚ) ≤ min 20 ((normalized.length : ℚ) / 3)))).take 8

/-- Embedding of `solveVigenere` on the normalized ciphertext: for each
    retained key length, solve every column independently, reassemble the
    key, rescore the reconstructed plaintext combined with IC bonus and
    0.3-weighted column average, bump confidence for detector-preferred
    lengths, stable-sort by combined score and keep the top 8. -/
def solveVigenereCore (tbl : QuadTable) (normalized : List Char) (keyLengths : List ℕ) :
    List CipherResult :=
  let sortedKeyLengths := vigenereKeyLens normalized keyLengths
  let results := sortedKeyLengths.map (fun keyLen =>
    let columns := (List.range keyLen).map (columnOf normalized keyLen)
    let pairs := columns.map (columnShift tbl)
    let key := pairs.map Prod.fst
    let columnScores := pairs.map Prod.snd
    let plaintext := normalized.enum.map (fun p => caesarShiftChar (key.getD (p.1 % keyLen) 0) p.2)
    let finalScore := scoreText tbl plaintext
    let ic := calculateIC plaintext
    let avgColumnScore := columnScores.sum / (columnScores.length : ℚ)
    let icBonus := if 0.060 < ic then (ic - 0.060) * 8 else 0
    let combinedScore := finalScore + icBonus + avgColumnScore * 0.3
    let keyString := key.map (fun k => Char.ofNat (k + 65))
    let confidence := max 0.01 (min 0.99 ((combinedScore + 10) / 8))
    let confidence :=
      if jsIndexOf keyLen keyLengths ≤ 2 then min 0.99 (confidence + 0.05) else confidence
    { type := CipherType.vigenere
      key := some keyString
      plaintext := plaintext
      confidence := confidence
      formula := "E(x_i) = (x_i - k_i) mod 26, key=" ++ String.mk keyString
      ngramScore := combinedScore })
  (sortDescBy (fun r => r.ngramScore) results).take 8

/-- Embedding of `solveVigenere`. -/
def solveVigenere (tbl : QuadTable) (ciphertext : List Char) (keyLengths : List ℕ) :
    List CipherResult :=
  solveVigenereCore tbl (normalizeTextL ciphertext) keyLengths

/-- C8: `solveVigenere` only attempts key lengths in [2, min(20, n/3)] and at
    most 8 of them, and it returns at most 8 candidates, sorted by combined
    ngram score in descending order. -/
theorem solveVigenere_bounds (tbl : QuadTable) (ct : List Char) (keyLengths : List ℕ) :
    (∀ k ∈ vigenereKeyLens (normalizeTextL ct) keyLengths,
        2 ≤ k ∧ (k : ℚ) ≤ min 20 (((normalizeTextL ct).length : ℚ) / 3)) ∧
    (vigenereKeyLens (normalizeTextL ct) keyLengths).length ≤ 8 ∧
    (solveVigenere tbl ct keyLengths).length ≤ 8 ∧
    SortedDescQ (fun r => r.ngramScore) (solveVigenere tbl ct keyLengths) := by
  refine ⟨?_, ?_, ?_, ?_⟩
  · intro k hk
    have hm := List.mem_filter.mp (List.mem_of_mem_take hk)
    have hp := hm.2
    simp only [Bool.and_eq_true, decide_eq_true_eq] at hp
    exact hp
  · unfold vigenereKeyLens
    rw [List.length_take]
    exact min_le_left _ _
  · show (solveVigenereCore tbl (normalizeTextL ct) keyLengths).length ≤ 8
    unfold solveVigenereCore
    rw [List.length_take]
    exact min_le_left _ _
  · show SortedDescQ (fun r => r.ngramScore) (solveVigenereCore tbl (normalizeTextL ct) keyLengths)
    unfold solveVigenereCore
    exact (sortDescBy_sorted _ _).take 8

/-- English letters in frequency order, as in the source. -/
def englishFreqOrder : List Char := "ETAOINSHRDLCUMWFGYPBVKJXQZ".toList

/-- Value of a JavaScript object at a key: reading an absent key yields
    `undefined`, which coincides with a stored `undefined` value. -/
def objGetV (m : MonoMap) (k : Option Char) : Option Char := (m.lookup k).join

/-- Truthiness of `mapping[key]` for single-letter values: truthy exactly
    when the key is present with a defined value. -/
def objHas (m : MonoMap) (k : Option Char) : Bool := (objGetV m k).isSome

/-- JavaScript object assignment `m[k] = v`: overwrite the key's slot in
    place when present, append a new binding otherwise. -/
def objSet (m : MonoMap) (k : Option Char) (v : Option Char) : MonoMap :=
  if (m.lookup k).isSome then m.map (fun p => if p.1 = k then (k, v) else p)
  else m ++ [(k, v)]

/-- JavaScript `Object.keys`, in insertion order. -/
def objKeys (m : MonoMap) : List (Option Char) := m.map Prod.fst

/-- Percentage frequency of a letter in the normalized text
    (`(cipherFreq[char] / totalChars) * 100`). -/
def pctFreq (normalized : List Char) (c : Char) : ℚ :=
  ((normalized.count c : ℚ) / (normalized.length : ℚ)) * 100

/-- Cipher letters sorted by percentage frequency descending, ties kept in
    first-occurrence order (object insertion order plus stable sort). -/
def cipherFreqSorted (normalized : List Char) : List Char :=
  sortDescBy (pctFreq normalized) (dedupFirst normalized)

/-- Phase 1 of the frequency mapping: map the i-th most frequent cipher
    letter to the i-th English letter in frequency order. -/
def freqPhase1 (normalized : List Char) : MonoMap :=
  let sorted := cipherFreqSorted normalized
  (List.range (min 26 sorted.length)).foldl
    (fun m i => objSet m (some (sorted.getD i 'A')) (some (englishFreqOrder.getD i 'Z'))) []

/-- Structural encoding of the while loop advancing `englishIndex` past used
    English letters.  The source condition reads
    `usedChars.has(english[idx]) && idx < 26`; reading index 26 yields
    `undefined`, never a member of the (all-defined) used set, so the
    conjunction below is equivalent.  The fuel `26 - idx` matches the loop
    bound exactly. -/
def skipUsedFuel (used : List (Option Char)) : ℕ → ℕ → ℕ
  | 0, idx => idx
  | fuel + 1, idx =>
    if idx < 26 ∧ some (englishFreqOrder.getD idx 'Z') ∈ used then
      skipUsedFuel used fuel (idx + 1)
    else idx

/-- While-loop of the fill phase: first index at or after `idx` whose English
    letter is not yet used (or the exit index). -/
def skipUsed (used : List (Option Char)) (idx : ℕ) : ℕ := skipUsedFuel used (26 - idx) idx

/-- Phase 2 of the frequency mapping: fill every unmapped letter A-Z with the
    first unused English letter in frequency order (the used set is captured
    once, before the loop, as in the source). -/
def fillRemaining (m : MonoMap) : MonoMap :=
  let used := m.map Prod.snd
  (upperAlphabet.foldl
    (fun st c =>
      if objHas st.1 (some c) then st
      else
        let j := skipUsed used st.2
        (objSet st.1 (some c) (some (englishFreqOrder.getD j 'Z')), j + 1))
    (m, 0)).1

/-- Method-1 frequency mapping of `solveMonoSubstitution`. -/
def frequencyMapping (normalized : List Char) : MonoMap :=
  fillRemaining (freqPhase1 normalized)

/-- Application of a mapping to one character: `mapping[char] || char`. -/
def applyMap (m : MonoMap) (c : Char) : Char := (objGetV m (some c)).getD c

/-- Embedding of `SeededRandom.next`: one linear-congruential step
    `seed = (seed * 1664525 + 1013904223) % 2^32` with the JavaScript
    remainder (sign of the dividend), returning the new seed. -/
def rngNext (seed : ℚ) : ℚ := jsMod (seed * 1664525 + 1013904223) 4294967296

/-- Embedding of `SeededRandom.nextInt(max)`: advance the seed, then floor
    `next() * max`; negative seeds produce negative indices. -/
def rngNextInt (seed : ℚ) (bound : ℕ) : ℚ × ℤ :=
  let s := rngNext seed
  (s, ⌊s / 4294967296 * (bound : ℚ)⌋)

/-- State of the hill-climbing loop of `solveMonoSubstitution`. -/
structure HillState where
  seed : ℚ
  bestMapping : MonoMap
  bestScore : ℚ
deriving DecidableEq, Repr

/-- One iteration of the monoalphabetic hill climb: draw two indices from the
    seeded generator, swap the corresponding mapping entries on a copy
    (out-of-range indices read `undefined`, whose object key is the
    `undefined` key, modelled as `none`), rescore, and accept the copy only
    on a strict improvement. -/
def hillStep (tbl : QuadTable) (normalized : List Char) (st : HillState) : HillState :=
  let mapping := st.bestMapping
  let chars := objKeys mapping
  if 2 ≤ chars.length then
    let p1 := rngNextInt st.seed chars.length
    let p2 := rngNextInt p1.1 chars.length
    if p1.2 ≠ p2.2 then
      let ki := (jsIdx chars p1.2).join
      let kj := (jsIdx chars p2.2).join
      let temp := objGetV mapping ki
      let m1 := objSet mapping ki (objGetV mapping kj)
      let m2 := objSet m1 kj temp
      let testPlaintext := normalized.map (applyMap m2)
      let testScore := scoreText tbl testPlaintext
      if st.bestScore < testScore then
        { seed := p2.1, bestMapping := m2, bestScore := testScore }
      else
        { seed := p2.1, bestMapping := st.bestMapping, bestScore := st.bestScore }
    else
      { seed := p2.1, bestMapping := st.bestMapping, bestScore := st.bestScore }
  else st

/-- Embedding of `solveMonoSubstitution` on the normalized ciphertext: the
    frequency-analysis candidate, the stub pattern refinement (never added:
    its plaintext equals the baseline, so the strict test fails), and for
    texts longer than 20 letters the 50-iteration seeded hill climb, emitted
    only when it beats the baseline by more than 0.5; sorted by score
    descending, top 5. -/
def solveMonoSubstitutionCore (tbl : QuadTable) (normalized : List Char) : List CipherResult :=
  let m := frequencyMapping normalized
  let plaintext1 := normalized.map (applyMap m)
  let score1 := scoreText tbl plaintext1
  let ic1 := calculateIC plaintext1
  let chi1 := calculateCharacterDistribution plaintext1
  let cand1 : CipherResult :=
    { type := CipherType.mono
      mapping := some m
      plaintext := plaintext1
      confidence := max 0.01 (min 0.99 ((score1 + 8) / 5 + (if 0.060 < ic1 then 0.1 else 0) -
        (if 30 < chi1 then 0.1 else 0)))
      formula := "E(x) = sigma-inverse(x), frequency analysis"
      ngramScore := score1 }
  let results := [cand1]
  let results :=
    if 10 < normalized.length then
      let patternMapping := m
      let plaintext2 := normalized.map (applyMap patternMapping)
      let score2 := scoreText tbl plaintext2
      if score1 < score2 then
        results ++ [{
          type := CipherType.mono
          mapping := some patternMapping
          plaintext := plaintext2
          confidence := max 0.01 (min 0.99 ((score2 + 8) / 5))
          formula := "E(x) = sigma-inverse(x), pattern analysis"
          ngramScore := score2 }]
      else results
    else results
  let results :=
    if 20 < normalized.length then
      let st0 : HillState :=
        { seed := (normalized.length : ℚ) + score1 * 1000
          bestMapping := m
          bestScore := score1 }
      let stN := (List.range 50).foldl (fun st _ => hillStep tbl normalized st) st0
      if score1 + 0.5 < stN.bestScore then
        results ++ [{
          type := CipherType.mono
          mapping := some stN.bestMapping
          plaintext := normalized.map (applyMap stN.bestMapping)
          confidence := max 0.01 (min 0.99 ((stN.bestScore + 8) / 5))
          formula := "E(x) = sigma-inverse(x), optimized"
          ngramScore := stN.bestScore }]
      else results
    else results
  (sortDescBy (fun r => r.ngramScore) results).take 5

/-- Embedding of `solveMonoSubstitution`. -/
def solveMonoSubstitution (tbl : QuadTable) (ciphertext : List Char) : List CipherResult :=
  solveMonoSubstitutionCore tbl (normalizeTextL ciphertext)

theorem hillStep_keep_or_improve (tbl : QuadTable) (nl : List Char) (s : HillState) :
    ((hillStep tbl nl s).bestMapping = s.bestMapping ∧
      (hillStep tbl nl s).bestScore = s.bestScore) ∨
    s.bestScore < (hillStep tbl nl s).bestScore := by
  unfold hillStep
  dsimp only
  split
  · split
    · split
      · rename_i hlt
        exact Or.inr hlt
      · exact Or.inl ⟨rfl, rfl⟩
    · exact Or.inl ⟨rfl, rfl⟩
  · exact Or.inl ⟨rfl, rfl⟩

theorem hillStep_score_mono (tbl : QuadTable) (nl : List Char) (s : HillState) :
    s.bestScore ≤ (hillStep tbl nl s).bestScore := by
  rcases hillStep_keep_or_improve tbl nl s with ⟨_, h⟩ | h
  · exact le_of_eq h.symm
  · exact le_of_lt h

/-- C5: greedy hill climbing is monotone — across any two iteration counts
    n ≤ m the best-known score never decreases, and a single iteration either
    keeps the prior best mapping and score unchanged or strictly improves the
    best score (swaps are accepted only on strict improvement). -/
theorem hillClimb_monotone (tbl : QuadTable) (normalized : List Char) (st : HillState)
    (n m : ℕ) (hnm : n ≤ m) :
    ((hillStep tbl normalized)^[n] st).bestScore ≤
      ((hillStep tbl normalized)^[m] st).bestScore ∧
    (((hillStep tbl normalized st).bestMapping = st.bestMapping ∧
      (hillStep tbl normalized st).bestScore = st.bestScore) ∨
      st.bestScore < (hillStep tbl normalized st).bestScore) := by
  refine ⟨?_, hillStep_keep_or_improve tbl normalized st⟩
  induction hnm with
  | refl => exact le_refl _
  | step _ ih =>
    rename_i k _
    refine le_trans ih ?_
    rw [Function.iterate_succ_apply']
    exact hillStep_score_mono tbl normalized _

/-- C6: `solveMonoSubstitution` is deterministic — its output is a pure
    function of the loaded table and the normalized ciphertext (the seeded
    generator is initialized only from the normalized length and the
    frequency-baseline score), so any two raw inputs with equal normalized
    form — in particular two identical calls — produce identical result
    lists, mappings and scores included. -/
theorem solveMono_deterministic (tbl : QuadTable) (t1 t2 : List Char)
    (h : normalizeTextL t1 = normalizeTextL t2) :
    solveMonoSubstitution tbl t1 = solveMonoSubstitution tbl t2 := by
  unfold solveMonoSubstitution
  rw [h]

/-- Total bijection over the 26 uppercase letters: the mapping's keys and
    its values are each a permutation of A-Z (in particular there is no
    `undefined` key or value). -/
def IsPermMapping (m : MonoMap) : Prop :=
  List.Perm (m.map Prod.fst) (upperAlphabet.map some) ∧
  List.Perm (m.map Prod.snd) (upperAlphabet.map some)

instance decidableIsPermMapping (m : MonoMap) : Decidable (IsPermMapping m) := by
  unfold IsPermMapping
  infer_instance

def c7Input : List Char := "THEQUICKBROWNFOXJUMPSOVER".toList

/-- Baseline plaintext the frequency mapping produces for `c7Input`. -/
def c7Baseline : List Char := "INTSAHRDLOECUMEWFAGYPEBTO".toList

/-- Spec-conforming quadgram table (negative log-probabilities) that seeds
    the hill climb with the integer -4136725: every quadgram of the baseline
    plaintext scores -16547/4, so the baseline score is exactly -16547/4 and
    the seed is 25 + 1000·(-16547/4) (float-exact: the seed and every
    subsequent LCG state are integers below 2^53). -/
def c7Table : QuadTable := (slidingWindows c7Baseline).map (fun w => (w, -16547/4))

set_option maxRecDepth 400000 in
unseal Rat.add Rat.mul Rat.inv Rat.sub Rat.ofScientific in
/-- C7: refuted on the code (code bug).  With a negative-log-probability
    table the hill-climb seed `n + 1000·score1` is negative, `next()` then
    yields negative fractions and `nextInt` negative indices; `chars[i]` is
    `undefined`, and the "swap" writes `undefined` over a real letter's
    target while adding an `undefined` key.  On this concrete table and
    ciphertext the broken mapping scores above the baseline, is accepted,
    and is emitted as the top candidate: its mapping sends E to `undefined`
    and has 27 keys — not a total bijection over A-Z, contradicting the
    spec's "guaranteeing a total bijection over all 26 letters". -/
theorem solveMono_emits_non_bijection :
    ∃ r ∈ solveMonoSubstitution c7Table c7Input,
      r.mapping.isSome ∧ ¬ IsPermMapping (r.mapping.getD []) := by
  decide

/-- Whitespace test of `String.prototype.trim` (the characters relevant to
    this pipeline). -/
def isJsSpace (c : Char) : Bool := c == ' ' || c == '\t' || c == '\n' || c == '\r'

/-- JavaScript `trim`. -/
def jsTrim (l : List Char) : List Char :=
  ((l.dropWhile isJsSpace).reverse.dropWhile isJsSpace).reverse

/-- Deduplication fingerprint of the worker:
    `plaintext.substring(0, 100).toUpperCase().trim()`. -/
def dedupKey (r : CipherResult) : List Char :=
  jsTrim ((r.plaintext.take 100).map asciiUpper)

/-- Deduplication by fingerprint, first occurrence wins (the
    `seenPlaintexts` set of the worker). -/
def dedupByKey (l : List CipherResult) : List CipherResult :=
  (l.foldl
    (fun st r => if dedupKey r ∈ st.2 then st else (st.1 ++ [r], dedupKey r :: st.2))
    ([], [])).1

/-- Embedding of the worker's candidate assembly in `analyzeCipher`: solve
    the detected family first, then always run all three solvers (Vigenere
    with the fixed list 2..12), concatenate, deduplicate by plaintext
    fingerprint, stable-sort by confidence and keep the 15 candidates sent
    to the external re-ranking collaborator. -/
def analyzeCandidates (tbl : QuadTable) (ciphertext : List Char) : List CipherResult :=
  let detection := detectCipherType ciphertext
  let results :=
    if detection.likelyType = CipherType.caesar then solveCaesar tbl ciphertext
    else if detection.likelyType = CipherType.vigenere then
      solveVigenere tbl ciphertext detection.keyLengths
    else solveMonoSubstitution tbl ciphertext
  let caesarResults := solveCaesar tbl ciphertext
  let vigenereResults := solveVigenere tbl ciphertext [2, 3, 4, 5, 6, 7, 8, 9, 10, 11, 12]
  let monoResults := solveMonoSubstitution tbl ciphertext
  let allResults := results ++ caesarResults ++ vigenereResults ++ monoResults
  let uniqueResults := dedupByKey allResults
  (sortDescBy (fun r => r.confidence) uniqueResults).take 15

theorem detectCipherType_congr (t1 t2 : List Char) (h : normalizeTextL t1 = normalizeTextL t2) :
    detectCipherType t1 = detectCipherType t2 := by
  unfold detectCipherType calculateIC friedmanTest kasiskiExamination detectRepeatingPatterns
    calculateCharacterDistribution
  rw [h]

theorem analyzeCandidates_congr (tbl : QuadTable) (t1 t2 : List Char)
    (h : normalizeTextL t1 = normalizeTextL t2) :
    analyzeCandidates tbl t1 = analyzeCandidates tbl t2 := by
  unfold analyzeCandidates solveCaesar solveVigenere solveMonoSubstitution
  rw [detectCipherType_congr t1 t2 h, h]

unseal Rat.add Rat.mul Rat.inv Rat.sub Rat.ofScientific in
theorem detectCipherType_of_nil : detectCipherType [] =
    { likelyType := CipherType.vigenere
      ic := 0
      keyLengths := [2, 3, 4, 5, 6]
      confidence := 3 / 4 } := by
  decide

unseal Rat.add Rat.mul Rat.inv Rat.sub Rat.ofScientific in
theorem vigenereKeyLens_nil_detect : vigenereKeyLens [] [2, 3, 4, 5, 6] = [] := by
  decide

unseal Rat.add Rat.mul Rat.inv Rat.sub Rat.ofScientific in
theorem vigenereKeyLens_nil_fixed :
    vigenereKeyLens [] [2, 3, 4, 5, 6, 7, 8, 9, 10, 11, 12] = [] := by
  decide

/-- Degenerate Caesar candidate produced on letterless input. -/
def caesarNilCand (shift : ℕ) (conf : ℚ) : CipherResult :=
  { type := CipherType.caesar
    shift := some shift
    plaintext := []
    confidence := conf
    formula := "E(x) = (x - " ++ toString shift ++ ") mod 26"
    ngramScore := -999999 }

/-- The ten candidates `solveCaesar` returns on letterless input: shifts 0-9,
    all with the sentinel score; shift 1 carries its confidence bump. -/
def caesarNilList : List CipherResult :=
  [caesarNilCand 0 (1/100), caesarNilCand 1 (1/25), caesarNilCand 2 (1/100),
   caesarNilCand 3 (1/100), caesarNilCand 4 (1/100), caesarNilCand 5 (1/100),
   caesarNilCand 6 (1/100), caesarNilCand 7 (1/100), caesarNilCand 8 (1/100),
   caesarNilCand 9 (1/100)]

/-- Frequency mapping produced for empty input: every letter filled in
    alphabetical order with the English frequency order. -/
def monoNilMapping : MonoMap :=
  (upperAlphabet.zip englishFreqOrder).map (fun p => (some p.1, some p.2))

/-- The single candidate `solveMonoSubstitution` returns on letterless input. -/
def monoNilCand : CipherResult :=
  { type := CipherType.mono
    mapping := some monoNilMapping
    plaintext := []
    confidence := 1/100
    formula := "E(x) = sigma-inverse(x), frequency analysis"
    ngramScore := -999999 }

theorem sortDescBy_nil {α : Type} (f : α → ℚ) : sortDescBy f [] = [] := rfl

set_option maxRecDepth 200000 in
unseal Rat.add Rat.mul Rat.inv Rat.sub Rat.ofScientific in
theorem solveCaesar_nil (tbl : QuadTable) : solveCaesar tbl [] = caesarNilList := by
  unfold solveCaesar solveCaesarCore
  simp only [normalizeTextL_nil, caesarDecrypt_nil, scoreText_nil]
  decide

set_option maxRecDepth 200000 in
unseal Rat.add Rat.mul Rat.inv Rat.sub Rat.ofScientific in
theorem solveMono_nil (tbl : QuadTable) : solveMonoSubstitution tbl [] = [monoNilCand] := by
  unfold solveMonoSubstitution solveMonoSubstitutionCore
  simp only [normalizeTextL_nil, List.map_nil, scoreText_nil, List.length_nil,
    Nat.reduceLT, reduceIte]
  decide

theorem solveVigenere_nil_detect (tbl : QuadTable) :
    solveVigenere tbl [] [2, 3, 4, 5, 6] = [] := by
  unfold solveVigenere solveVigenereCore
  simp only [normalizeTextL_nil, vigenereKeyLens_nil_detect, List.map_nil, sortDescBy_nil,
    List.take_nil]

theorem solveVigenere_nil_fixed (tbl : QuadTable) :
    solveVigenere tbl [] [2, 3, 4, 5, 6, 7, 8, 9, 10, 11, 12] = [] := by
  unfold solveVigenere solveVigenereCore
  simp only [normalizeTextL_nil, vigenereKeyLens_nil_fixed, List.map_nil, sortDescBy_nil,
    List.take_nil]

set_option maxRecDepth 200000 in
unseal Rat.add Rat.mul Rat.inv Rat.sub Rat.ofScientific in
theorem analyze_empty_pipeline (tbl : QuadTable) :
    (analyzeCandidates tbl []).map (fun r => (r.type, r.shift, r.plaintext, r.ngramScore)) =
      [(CipherType.caesar, some 0, [], -999999)] := by
  unfold analyzeCandidates
  simp only [detectCipherType_of_nil, reduceCtorEq, reduceIte, solveCaesar_nil,
    solveVigenere_nil_detect, solveVigenere_nil_fixed, solveMono_nil]
  decide

/-- C3 counterexample: on empty input the pipeline's candidate set is not
    empty — the Caesar solver still emits its 26 degenerate shifts, one of
    which survives deduplication. -/
theorem analyze_empty_not_empty : analyzeCandidates [] [] ≠ [] := by
  intro hempty
  have h := analyze_empty_pipeline []
  rw [hempty] at h
  exact absurd h (by decide)

set_option maxRecDepth 100000 in
/-- C3 amended: on input whose normalized form is empty the detector returns
    the vigenere fallback with confidence 3/4 (its 0.75 cap), and the
    pipeline returns exactly one degenerate candidate — Caesar shift 0 with
    empty plaintext and the sentinel combined score -999999 — rather than an
    empty candidate set. -/
theorem analyze_empty_degenerate (tbl : QuadTable) (ct : List Char)
    (h : normalizeTextL ct = []) :
    (detectCipherType ct).likelyType = CipherType.vigenere ∧
    (detectCipherType ct).confidence = 3 / 4 ∧
    (analyzeCandidates tbl ct).map (fun r => (r.type, r.shift, r.plaintext, r.ngramScore)) =
      [(CipherType.caesar, some 0, [], -999999)] := by
  have hnil : normalizeTextL ct = normalizeTextL [] := h.trans rfl
  have hd : detectCipherType ct = detectCipherType [] := detectCipherType_congr ct [] hnil
  refine ⟨by rw [hd, detectCipherType_of_nil], by rw [hd, detectCipherType_of_nil], ?_⟩
  rw [analyzeCandidates_congr tbl ct [] hnil]
  exact analyze_empty_pipeline tbl

/-- One entry of the collaborator's JSON `rankings` array. -/
structure LlmRanking where
  candidate : ℤ
  score : ℚ
  reasoning : String
deriving DecidableEq, Repr

/-- Server-side application of one ranking entry:
    `{ ...candidates[ranking.candidate - 1], llmScore, llmReasoning,
    confidence: max(original, score) }`.  An index outside the candidate
    array reads `undefined`, and the subsequent `.confidence` access throws —
    modelled as `none`, which sends the whole request into the catch-block
    fallback. -/
def applyRankingEntry (candidates : List CipherResult) (rk : LlmRanking) :
    Option CipherResult :=
  match jsIdx candidates (rk.candidate - 1) with
  | none => none
  | some c => some { c with
      llmScore := some rk.score
      llmReasoning := some rk.reasoning
      confidence := max c.confidence rk.score }

/-- All ranking entries applied, failing as a whole when any entry throws
    (the handler's try block). -/
def applyAllRankings (candidates : List CipherResult) :
    List LlmRanking → Option (List CipherResult)
  | [] => some []
  | rk :: rks =>
    match applyRankingEntry candidates rk, applyAllRankings candidates rks with
    | some c, some cs => some (c :: cs)
    | _, _ => none

/-- Embedding of the `/api/rank-decryptions` handler: on success the mapped,
    annotated candidates cut to the top 3; on failure (LLM error, bad index,
    missing key) the original candidates sorted by `ngramScore || 0`
    (identity on rationals) and cut to the top 3. -/
def rankDecryptions (candidates : List CipherResult) (rankings : List LlmRanking) :
    List CipherResult :=
  match applyAllRankings candidates rankings with
  | some rankedCandidates => rankedCandidates.take 3
  | none => (sortDescBy (fun c => c.ngramScore) candidates).take 3

/-- Worker-side application of the collaborator response:
    `rankingData.rankedCandidates || candidatesForLLM.slice(0, 3)`; an absent
    response falls back to the local top 3. -/
def applyRankingResponse (candidatesForLLM : List CipherResult)
    (response : Option (List CipherResult)) : List CipherResult :=
  match response with
  | some rankedCandidates => rankedCandidates
  | none => candidatesForLLM.take 3

theorem applyAllRankings_mem (candidates : List CipherResult)
    (rks : List LlmRanking) (out : List CipherResult)
    (h : applyAllRankings candidates rks = some out) :
    ∀ c ∈ out, ∃ rk ∈ rks, applyRankingEntry candidates rk = some c := by
  induction rks generalizing out with
  | nil =>
    simp only [applyAllRankings, Option.some_inj] at h
    subst h
    intro c hc
    exact absurd hc (List.not_mem_nil c)
  | cons rk rks ih =>
    intro c hc
    simp only [applyAllRankings] at h
    cases he : applyRankingEntry candidates rk with
    | none => rw [he] at h; exact absurd h (by simp)
    | some c0 =>
      rw [he] at h
      cases ha : applyAllRankings candidates rks with
      | none => rw [ha] at h; exact absurd h (by simp)
      | some cs =>
        rw [ha] at h
        simp only [Option.some_inj] at h
        subst h
        rcases List.mem_cons.mp hc with rfl | hc
        · exact ⟨rk, List.mem_cons_self rk rks, he⟩
        · obtain ⟨rk2, hrk, happ⟩ := ih cs ha c hc
          exact ⟨rk2, List.mem_cons_of_mem rk hrk, happ⟩

theorem jsIdx_mem {α : Type} {l : List α} {i : ℤ} {a : α} (h : jsIdx l i = some a) :
    a ∈ l := by
  unfold jsIdx at h
  split at h
  · rw [← Option.some_inj.mp h]
    exact List.get_mem l _ _
  · exact absurd h (by simp)

/-- C9: the re-ranking application only re-orders, truncates and annotates —
    every candidate in the final list (whether the collaborator responded or
    the engine fell back) agrees with one of the input candidates on
    plaintext, type, key, shift and mapping. -/
theorem rankDecryptions_preserves_candidates (cands : List CipherResult)
    (resp : Option (List LlmRanking)) (c : CipherResult)
    (hc : c ∈ applyRankingResponse cands (resp.map (rankDecryptions cands))) :
    ∃ c0 ∈ cands, c.plaintext = c0.plaintext ∧ c.type = c0.type ∧ c.key = c0.key ∧
      c.shift = c0.shift ∧ c.mapping = c0.mapping := by
  cases resp with
  | none =>
    refine ⟨c, List.mem_of_mem_take hc, rfl, rfl, rfl, rfl, rfl⟩
  | some rks =>
    have hc2 : c ∈ rankDecryptions cands rks := by
      simpa [applyRankingResponse] using hc
    unfold rankDecryptions at hc2
    cases ha : applyAllRankings cands rks with
    | none =>
      rw [ha] at hc2
      exact ⟨c, mem_sortDescBy.mp (List.mem_of_mem_take hc2), rfl, rfl, rfl, rfl, rfl⟩
    | some out =>
      rw [ha] at hc2
      obtain ⟨rk, _, happ⟩ :=
        applyAllRankings_mem cands rks out ha c (List.mem_of_mem_take hc2)
      unfold applyRankingEntry at happ
      cases hj : jsIdx cands (rk.candidate - 1) with
      | none => rw [hj] at happ; exact absurd happ (by simp)
      | some c0 =>
        rw [hj] at happ
        simp only [Option.some_inj] at happ
        subst happ
        exact ⟨c0, jsIdx_mem hj, rfl, rfl, rfl, rfl, rfl⟩

def c3WitnessInput : List Char := "123".toList

/-- Witness for C3's amended theorem at the concrete input "123" (digits
    only, so the normalized form is empty) and the degraded empty table. -/
theorem analyze_empty_degenerate_witness :
    normalizeTextL c3WitnessInput = [] ∧
    ((detectCipherType c3WitnessInput).likelyType = CipherType.vigenere ∧
      (detectCipherType c3WitnessInput).confidence = 3 / 4 ∧
      (analyzeCandidates [] c3WitnessInput).map
          (fun r => (r.type, r.shift, r.plaintext, r.ngramScore)) =
        [(CipherType.caesar, some 0, [], -999999)]) :=
  ⟨by decide, analyze_empty_degenerate [] c3WitnessInput (by decide)⟩

def hillWitnessState : HillState := { seed := 0, bestMapping := [], bestScore := 0 }

/-- Witness for C5 at a concrete state and iteration counts 0 ≤ 1. -/
theorem hillClimb_monotone_witness :
    (0 : ℕ) ≤ 1 ∧
    (((hillStep [] [])^[0] hillWitnessState).bestScore ≤
        ((hillStep [] [])^[1] hillWitnessState).bestScore ∧
      (((hillStep [] [] hillWitnessState).bestMapping = hillWitnessState.bestMapping ∧
        (hillStep [] [] hillWitnessState).bestScore = hillWitnessState.bestScore) ∨
        hillWitnessState.bestScore < (hillStep [] [] hillWitnessState).bestScore)) :=
  ⟨by decide, hillClimb_monotone [] [] hillWitnessState 0 1 (by decide)⟩

def c6Input1 : List Char := "A B".toList

def c6Input2 : List Char := "AB".toList

/-- Witness for C6 at two concrete raw inputs with the same normalization. -/
theorem solveMono_deterministic_witness :
    normalizeTextL c6Input1 = normalizeTextL c6Input2 ∧
    solveMonoSubstitution [] c6Input1 = solveMonoSubstitution [] c6Input2 :=
  ⟨by decide, solveMono_deterministic [] c6Input1 c6Input2 (by decide)⟩

def c8Input : List Char := "WKDWLVDVHFUHWPHVVDJH".toList

unseal Rat.add Rat.mul Rat.inv Rat.sub Rat.ofScientific in
/-- Witness for C8: on a 20-letter input, key length 2 is among the attempted
    lengths and satisfies the claimed range bound. -/
theorem solveVigenere_bounds_witness :
    2 ∈ vigenereKeyLens (normalizeTextL c8Input) [2, 3] ∧
    (2 ≤ 2 ∧ (2 : ℚ) ≤ min 20 (((normalizeTextL c8Input).length : ℚ) / 3)) :=
  ⟨by decide, (solveVigenere_bounds [] c8Input [2, 3]).1 2 (by decide)⟩

def c9Cand : CipherResult :=
  { type := CipherType.caesar
    shift := some 3
    plaintext := "HELLO".toList
    confidence := 1/10
    formula := "E(x) = (x - 3) mod 26"
    ngramScore := -2 }

def c9Ranking : LlmRanking := { candidate := 1, score := 1/2, reasoning := "ok" }

def c9Out : CipherResult :=
  { c9Cand with
    llmScore := some (1/2)
    llmReasoning := some "ok"
    confidence := max (1/10) (1/2) }

unseal Rat.add Rat.mul Rat.inv Rat.sub Rat.ofScientific in
/-- Witness for C9 at one concrete candidate and one concrete ranking entry. -/
theorem rankDecryptions_preserves_candidates_witness :
    c9Out ∈ applyRankingResponse [c9Cand] ((some [c9Ranking]).map (rankDecryptions [c9Cand])) ∧
    (∃ c0 ∈ [c9Cand], c9Out.plaintext = c0.plaintext ∧ c9Out.type = c0.type ∧
      c9Out.key = c0.key ∧ c9Out.shift = c0.shift ∧ c9Out.mapping = c0.mapping) :=
  ⟨by decide, rankDecryptions_preserves_candidates [c9Cand] (some [c9Ranking]) c9Out (by decide)⟩

def c10Input : List Char := "123".toList

unseal Rat.add Rat.mul Rat.inv Rat.sub Rat.ofScientific in
/-- Witness for C10 at the concrete letterless input "123" and the degraded
    empty table, discharging the degenerate-candidate implication at the
    concrete shift-0 candidate. -/
theorem solveCaesar_ten_candidates_witness :
    normalizeTextL c10Input = [] ∧
    caesarNilCand 0 (1/100) ∈ solveCaesar [] c10Input ∧
    ((caesarNilCand 0 (1/100)).plaintext = [] ∧
      (caesarNilCand 0 (1/100)).ngramScore = -999999) :=
  ⟨by decide, by decide,
    (solveCaesar_ten_candidates [] c10Input).2 (by decide) (caesarNilCand 0 (1/100)) (by decide)⟩

end Crypto
